import Mathlib

/-!
Shallow embedding of the hexless puzzle solver (src/main.rs): the tile
state model, the per-tick transition, action application, the memoized
depth-first search, the gesture encoder, and the input parser, together
with theorems checking the specification's claims against them.
-/

set_option maxHeartbeats 1000000

namespace Hexless

/-- A region's state: dormant with a countdown, active with a strength,
or cleared. Mirrors `enum Tile` in the source. -/
inductive Tile
  | Latent (n : Nat)
  | Active (v : Nat)
  | Dead
  deriving DecidableEq, Repr

/-- A player action. Mirrors `enum Action` in the source. -/
inductive Action
  | Advance
  | CounterClockwise
  | Clockwise
  | Collect
  deriving DecidableEq, Repr

/-- The canonical memo key used by the search: board snapshot, cursor and
reward. Mirrors `struct SeenState` in the source. -/
structure SeenState where
  tiles : List Tile
  location : Option Nat
  reward : Nat
  deriving DecidableEq, Repr

/-- The full game state. Mirrors `struct GameState` in the source. -/
structure GameState where
  tiles : List Tile
  location : Option Nat
  start_location : Option Nat
  threshold : Nat
  reward : Nat
  location_queue : List (Option Nat)
  action_queue : List Action
  deriving DecidableEq, Repr

/-- `GameState::new`: fresh state with no cursor, threshold 6, reward 0. -/
def GameState.new (tiles : List Tile) : GameState :=
  { tiles := tiles
    location := none
    start_location := none
    threshold := 6
    reward := 0
    location_queue := []
    action_queue := [] }

/-- The per-tile tick rule, the match arms of `GameState::step`. -/
def stepTile (threshold : Nat) : Tile → Tile
  | Tile.Latent 0 => Tile.Active 1
  | Tile.Latent (n + 1) => Tile.Latent n
  | Tile.Active v => if v < threshold then Tile.Active (v + 1) else Tile.Dead
  | Tile.Dead => Tile.Dead

/-- `GameState::step`: one tick, applied to every tile independently. -/
def GameState.step (s : GameState) : GameState :=
  { s with tiles := s.tiles.map (stepTile s.threshold) }

/-- Whether a tile is `Dead`, as tested by the terminal check. -/
def Tile.isDead : Tile → Bool
  | Tile.Dead => true
  | _ => false

/-- The reward gained by collecting a tile: `v.pow(2)` on an active tile,
nothing otherwise (the `if let Tile::Active(v)` arm of `execute`). -/
def collectGain : Tile → Nat
  | Tile.Active v => v ^ 2
  | _ => 0

/-- `GameState::execute`: apply one action. The source indexes the board
and unwraps the cursor, panicking when the cursor is unset or out of
range and when rotating an empty board; those (unreachable) panics are
modelled as `none`. Every application appends the action and the
resulting cursor to their queues. -/
def execute (s : GameState) (a : Action) : Option GameState :=
  match a with
  | Action.Collect =>
    match s.location with
    | none => none
    | some i =>
      if _ : i < s.tiles.length then
        some { s with
          tiles := s.tiles.set i Tile.Dead
          reward := s.reward + collectGain (s.tiles.get ⟨i, by assumption⟩)
          action_queue := s.action_queue ++ [a]
          location_queue := s.location_queue ++ [s.location] }
      else none
  | Action.Advance =>
    let s' := s.step
    some { s' with
      action_queue := s'.action_queue ++ [a]
      location_queue := s'.location_queue ++ [s'.location] }
  | Action.CounterClockwise =>
    match s.location with
    | none => none
    | some l =>
      if s.tiles.length = 0 then none
      else
        let s' := GameState.step
          { s with location := some ((l + s.tiles.length - 1) % s.tiles.length) }
        some { s' with
          action_queue := s'.action_queue ++ [a]
          location_queue := s'.location_queue ++ [s'.location] }
  | Action.Clockwise =>
    match s.location with
    | none => none
    | some l =>
      if s.tiles.length = 0 then none
      else
        let s' := GameState.step
          { s with location := some ((l + 1) % s.tiles.length) }
        some { s' with
          action_queue := s'.action_queue ++ [a]
          location_queue := s'.location_queue ++ [s'.location] }

/-- The canonical key of a state, as built at both memo sites in `solve`. -/
def toSeen (s : GameState) : SeenState :=
  { tiles := s.tiles, location := s.location, reward := s.reward }

/-- The best-result selector of `solve`: keep strictly greater reward, or
on a reward tie strictly fewer total actions. -/
def chooseBest (best : Option GameState) (result : Option GameState) :
    Option GameState :=
  match result with
  | none => best
  | some r =>
    match best with
    | none => some r
    | some b =>
      if r.reward > b.reward ∨
          (r.reward = b.reward ∧ r.action_queue.length < b.action_queue.length)
      then some r else some b

/-- `solve`, made total with a fuel parameter (the source recursion is
bounded in practice by the memo set over a finite reachable state space).
The `HashSet` is modelled as a list of keys threaded through the calls;
only membership and insertion are used. Exhausted fuel returns `none`. -/
def solveF : Nat → GameState → List SeenState →
    Option GameState × List SeenState
  | 0, _, seen => (none, seen)
  | Nat.succ n, s, seen =>
    if s.tiles.all Tile.isDead then (some s, seen)
    else if toSeen s ∈ seen then (none, seen)
    else
      let seen1 := toSeen s :: seen
      match s.location with
      | none =>
        (List.range s.tiles.length).foldl
          (fun acc i =>
            let ns := GameState.step
              { s with location := some i, start_location := some i }
            let r := solveF n ns acc.2
            (chooseBest acc.1 r.1, r.2))
          (none, seen1)
      | some _ =>
        [Action.Advance, Action.CounterClockwise,
         Action.Clockwise, Action.Collect].foldl
          (fun acc a =>
            if s.action_queue.getLast? = some Action.Collect ∧ a = Action.Collect
            then acc
            else
              match execute s a with
              | none => acc
              | some ns =>
                let r := solveF n ns acc.2
                (chooseBest acc.1 r.1, r.2))
          (none, seen1)

/-- One printed instruction of the encoder `accumulate`. The rotation
gesture additionally records how many rotation actions it consumed (the
`n` computed in the source, which the `println!` drops) so that theorems
can speak about per-gesture consumption. -/
inductive Gesture
  | tapTimes (n : Nat)
  | rotGesture (consumed : Nat) (pos : Int) (swipe : Bool)
  | swipeActive
  deriving DecidableEq, Repr

/-- The inner `while` of the `Advance` arm of `accumulate`: consume the
rest of a maximal run of consecutive `Advance` actions (no cap),
returning the run length and the remaining actions. -/
def consumeAdv : Nat → List Action → Nat × List Action
  | n, Action.Advance :: rest => consumeAdv (n + 1) rest
  | n, rest => (n, rest)

/-- The inner `while` of the rotation arms of `accumulate`: consume
further copies of the same rotation while the running count `n`
satisfies `n ≤ 3`, returning the count and the remaining actions. -/
def consumeRun (a : Action) : Nat → List Action → Nat × List Action
  | n, b :: rest =>
    if b = a ∧ n ≤ 3 then consumeRun a (n + 1) rest else (n, b :: rest)
  | n, [] => (n, [])

/-- The encoder `accumulate`: compress a raw action sequence into
gestures, keeping a running printed location (an `isize` in the source,
hence `Int` here) that is reduced with `rem_euclid(6)` after every
rotation gesture. -/
def accumulate : List Action → Int → List Gesture
  | [], _ => []
  | Action.Advance :: rest, loc =>
    let p := consumeAdv 1 rest
    Gesture.tapTimes p.1 :: accumulate p.2 loc
  | Action.CounterClockwise :: rest, loc =>
    let p := consumeRun Action.CounterClockwise 1 rest
    let loc' := (loc - (p.1 : Int)).emod 6
    match hp : p.2 with
    | Action.Collect :: rest2 =>
      Gesture.rotGesture p.1 loc' true :: accumulate rest2 loc'
    | r => Gesture.rotGesture p.1 loc' false :: accumulate r loc'
  | Action.Clockwise :: rest, loc =>
    let p := consumeRun Action.Clockwise 1 rest
    let loc' := (loc + (p.1 : Int)).emod 6
    match hp : p.2 with
    | Action.Collect :: rest2 =>
      Gesture.rotGesture p.1 loc' true :: accumulate rest2 loc'
    | r => Gesture.rotGesture p.1 loc' false :: accumulate r loc'
  | Action.Collect :: rest, loc =>
    Gesture.swipeActive :: accumulate rest loc
termination_by l _ => l.length
decreasing_by
  all_goals simp_wf
  all_goals
    have hAdv : ∀ (m : Nat) (l : List Action), (consumeAdv m l).2.length ≤ l.length := by
      intro m l
      induction l generalizing m with
      | nil => simp [consumeAdv]
      | cons b t ih => cases b <;> simp [consumeAdv] <;> exact Nat.le_succ_of_le (ih _)
  all_goals
    have hRun : ∀ (a : Action) (m : Nat) (l : List Action),
        (consumeRun a m l).2.length ≤ l.length := by
      intro a m l
      induction l generalizing m with
      | nil => simp [consumeRun]
      | cons b t ih =>
        by_cases hc : b = a ∧ m ≤ 3
        · simp [consumeRun, hc]
          exact Nat.le_succ_of_le (ih _)
        · simp [consumeRun, hc]
  all_goals try exact Nat.lt_succ_of_le (hAdv 1 rest)
  all_goals have h1 : p.2.length ≤ rest.length := hRun _ 1 rest
  all_goals rw [hp] at h1
  all_goals try simp at h1
  all_goals omega

/-- Replay of an action sequence's rotations on a board of length `n`,
using the cursor updates of `execute` (the well-defined modulus). -/
def replayLoc (n : Nat) : List Action → Nat → Nat
  | [], l => l
  | Action.CounterClockwise :: rest, l => replayLoc n rest ((l + n - 1) % n)
  | Action.Clockwise :: rest, l => replayLoc n rest ((l + 1) % n)
  | _ :: rest, l => replayLoc n rest l

/-- One parsed input character, the match in `main`'s read loop:
a decimal digit becomes `Latent(digit)`, anything else `Dead`. -/
def parseTile (c : Char) : Tile :=
  if c.isDigit then Tile.Latent (c.toNat - '0'.toNat) else Tile.Dead

/-- The input parse loop of `main`: every character of the line read
(including the terminating newline) becomes one tile. -/
def parseTiles (cs : List Char) : List Tile :=
  cs.map parseTile

/-- Apply a whole action sequence with `execute`, failing when any single
application fails. -/
def runActions : GameState → List Action → Option GameState
  | s, [] => some s
  | s, a :: rest =>
    match execute s a with
    | none => none
    | some s' => runActions s' rest

/-- Whether an action list contains no two consecutive `Collect`s. -/
def noConsecCollect : List Action → Bool
  | Action.Collect :: Action.Collect :: _ => false
  | _ :: rest => noConsecCollect rest
  | [] => true

/-- The number of rotation actions a gesture consumed (zero for the
non-rotation gestures). -/
def consumedRot : Gesture → Nat
  | Gesture.rotGesture n _ _ => n
  | _ => 0

/-- The initial countdown of a tile (zero for non-latent tiles). -/
def countdownOf : Tile → Nat
  | Tile.Latent n => n
  | _ => 0

/-- The maximum initial latent countdown on a board. -/
def maxCountdown (b : List Tile) : Nat :=
  (b.map countdownOf).foldr max 0

/-- Number of ticks after which a tile is certainly `Dead` (threshold
`th`): a latent tile waits out its countdown, activates, grows to the
threshold and dies. -/
def deathSteps (th : Nat) : Tile → Nat
  | Tile.Latent n => n + th + 1
  | Tile.Active v => if v ≤ th then th + 1 - v else 1
  | Tile.Dead => 0

/-- C4: one tick maps each tile independently and totally: Latent(0) to
Active(1), Latent(n+1) to Latent(n), Active(v) with v below the threshold
to Active(v+1), Active(threshold) to Dead, and Dead to Dead; the board
update is the per-tile map applied pointwise (pure, deterministic and
total by construction as a Lean function). -/
theorem step_per_tile_spec (s : GameState) (n v : Nat) (hv : v < s.threshold) :
    (GameState.step s).tiles = s.tiles.map (stepTile s.threshold)
    ∧ stepTile s.threshold (Tile.Latent 0) = Tile.Active 1
    ∧ stepTile s.threshold (Tile.Latent (n + 1)) = Tile.Latent n
    ∧ stepTile s.threshold (Tile.Active v) = Tile.Active (v + 1)
    ∧ stepTile s.threshold (Tile.Active s.threshold) = Tile.Dead
    ∧ stepTile s.threshold Tile.Dead = Tile.Dead := by
  refine ⟨rfl, rfl, rfl, ?_, ?_, rfl⟩
  · simp [stepTile, hv]
  · simp [stepTile]

/-- Witness for C4 at a concrete state and tile value. -/
theorem step_per_tile_spec_witness :
    2 < (GameState.new [Tile.Latent 3]).threshold
    ∧ stepTile (GameState.new [Tile.Latent 3]).threshold (Tile.Active 2) =
        Tile.Active 3 :=
  ⟨by decide, (step_per_tile_spec (GameState.new [Tile.Latent 3]) 0 2 (by decide)).2.2.2.1⟩

/-- C10: the parser maps every character of the read line, the
terminating newline included, to a tile; a line of k characters before
the newline yields k+1 tiles whose last tile is Dead. -/
theorem parse_line_newline_dead (line : List Char) :
    parseTiles (line ++ ['\n']) = parseTiles line ++ [Tile.Dead]
    ∧ (parseTiles (line ++ ['\n'])).length = line.length + 1
    ∧ (parseTiles (line ++ ['\n'])).getLast? = some Tile.Dead := by
  have hnl : parseTile '\n' = Tile.Dead := by decide
  refine ⟨?_, ?_, ?_⟩
  · simp [parseTiles, hnl]
  · simp [parseTiles]
  · simp [parseTiles, hnl, List.getLast?_concat]

/-- C6: Collect with the cursor on index i kills the tile at i (whatever
its prior kind), adds the square of its strength exactly when it was
Active, leaves every other tile untouched (no tick), and appends to the
queues. -/
theorem execute_collect_spec (s : GameState) (i : Nat)
    (hl : s.location = some i) (hi : i < s.tiles.length) :
    execute s Action.Collect = some { s with
        tiles := s.tiles.set i Tile.Dead,
        reward := s.reward + collectGain (s.tiles.get ⟨i, hi⟩),
        action_queue := s.action_queue ++ [Action.Collect],
        location_queue := s.location_queue ++ [some i] }
    ∧ (s.tiles.set i Tile.Dead).length = s.tiles.length
    ∧ (∀ hi2 : i < (s.tiles.set i Tile.Dead).length,
        (s.tiles.set i Tile.Dead).get ⟨i, hi2⟩ = Tile.Dead)
    ∧ (∀ (j : Nat) (hj : j < s.tiles.length)
        (hj2 : j < (s.tiles.set i Tile.Dead).length), j ≠ i →
        (s.tiles.set i Tile.Dead).get ⟨j, hj2⟩ = s.tiles.get ⟨j, hj⟩)
    ∧ (∀ w, collectGain (Tile.Active w) = w ^ 2)
    ∧ (∀ m, collectGain (Tile.Latent m) = 0)
    ∧ collectGain Tile.Dead = 0 := by
  refine ⟨?_, by simp, by simp, ?_, fun w => rfl, fun m => rfl, rfl⟩
  · simp [execute, hl, hi]
  · intro j hj hj2 hne
    simp [List.getElem_set_ne (Ne.symm hne)]

/-- Witness for C6 at a concrete state with an active tile under the
cursor. -/
theorem execute_collect_spec_witness :
    execute ({ GameState.new [Tile.Active 2] with location := some 0 } :
        GameState) Action.Collect =
      some ({ GameState.new [Tile.Active 2] with
        location := some 0,
        tiles := [Tile.Active 2].set 0 Tile.Dead,
        reward := 0 + collectGain (Tile.Active 2),
        action_queue := [Action.Collect],
        location_queue := [some 0] } : GameState) :=
  (execute_collect_spec
    ({ GameState.new [Tile.Active 2] with location := some 0 } : GameState)
    0 rfl (by decide)).1

/-- C8: reward never decreases: across a single `execute` and hence along
any action sequence applied with `runActions`. -/
theorem reward_monotone :
    (∀ (s : GameState) (a : Action) (s' : GameState),
        execute s a = some s' → s.reward ≤ s'.reward)
    ∧ (∀ (s : GameState) (acts : List Action) (s' : GameState),
        runActions s acts = some s' → s.reward ≤ s'.reward) := by
  have hstep : ∀ (s : GameState) (a : Action) (s' : GameState),
      execute s a = some s' → s.reward ≤ s'.reward := by
    intro s a s' h
    cases a with
    | Advance =>
      simp [execute] at h
      subst h
      simp [GameState.step]
    | CounterClockwise =>
      rcases hl : s.location with - | l <;> simp [execute, hl] at h
      rcases h with ⟨-, h⟩
      subst h
      simp [GameState.step]
    | Clockwise =>
      rcases hl : s.location with - | l <;> simp [execute, hl] at h
      rcases h with ⟨-, h⟩
      subst h
      simp [GameState.step]
    | Collect =>
      rcases hl : s.location with - | i <;> simp [execute, hl] at h
      rcases h with ⟨hi, h⟩
      subst h
      exact Nat.le_add_right _ _
  have hrun : ∀ (acts : List Action) (s s' : GameState),
      runActions s acts = some s' → s.reward ≤ s'.reward := by
    intro acts
    induction acts with
    | nil =>
      intro s s' h
      simp [runActions] at h
      subst h
      exact le_refl _
    | cons a rest ih =>
      intro s s' h
      rw [runActions] at h
      rcases he : execute s a with - | s1 <;> rw [he] at h
      · simp at h
      · exact le_trans (hstep s a s1 he) (ih s1 s' h)
  exact ⟨hstep, fun s acts s' => hrun acts s s'⟩

/-- Witness for C8 at a concrete collect that adds reward. -/
theorem reward_monotone_witness :
    execute ({ GameState.new [Tile.Active 2] with location := some 0 } :
        GameState) Action.Collect =
      some ({ GameState.new [Tile.Dead] with
        location := some 0,
        reward := 4,
        action_queue := [Action.Collect],
        location_queue := [some 0] } : GameState)
    ∧ ({ GameState.new [Tile.Active 2] with location := some 0 } :
        GameState).reward ≤ 4 :=
  ⟨by decide,
    reward_monotone.1
      ({ GameState.new [Tile.Active 2] with location := some 0 } : GameState)
      Action.Collect
      ({ GameState.new [Tile.Dead] with
        location := some 0,
        reward := 4,
        action_queue := [Action.Collect],
        location_queue := [some 0] } : GameState)
      (by decide)⟩

theorem stepTile_iterate_dead (th : Nat) (hth : 1 ≤ th) :
    ∀ (k : Nat) (t : Tile), deathSteps th t ≤ k → (stepTile th)^[k] t = Tile.Dead := by
  intro k
  induction k with
  | zero =>
    intro t ht
    cases t with
    | Latent n => simp [deathSteps] at ht
    | Active v =>
      simp [deathSteps] at ht
      split at ht <;> omega
    | Dead => simp
  | succ k ih =>
    intro t ht
    rw [Function.iterate_succ_apply]
    apply ih
    cases t with
    | Latent n =>
      cases n with
      | zero =>
        have h1 : (1:Nat) ≤ th := hth
        simp [stepTile, deathSteps, h1]
        simp [deathSteps] at ht
        omega
      | succ m =>
        simp [stepTile, deathSteps] at *
        omega
    | Active v =>
      by_cases hv : v < th
      · have hstep : stepTile th (Tile.Active v) = Tile.Active (v + 1) := by
          simp [stepTile, hv]
        rw [hstep]
        simp only [deathSteps] at ht ⊢
        split at ht <;> split <;> omega
      · simp [stepTile, hv, deathSteps]
    | Dead => simp [stepTile, deathSteps]

theorem deathSteps_le_bound (th : Nat) (t : Tile) :
    deathSteps th t ≤ countdownOf t + th + 1 := by
  cases t <;> simp [deathSteps, countdownOf]
  all_goals split <;> omega

theorem countdownOf_le_maxCountdown (b : List Tile) (t : Tile) (ht : t ∈ b) :
    countdownOf t ≤ maxCountdown b := by
  induction b with
  | nil => cases ht
  | cons x xs ih =>
    rcases List.mem_cons.mp ht with rfl | hmem
    · have hc : maxCountdown (t :: xs) = max (countdownOf t) (maxCountdown xs) := rfl
      rw [hc]
      exact le_max_left _ _
    · have hc : maxCountdown (x :: xs) = max (countdownOf x) (maxCountdown xs) := rfl
      rw [hc]
      exact le_trans (ih hmem) (le_max_right _ _)

theorem iterate_step_tiles (s : GameState) (k : Nat) :
    ((GameState.step)^[k] s).tiles = s.tiles.map ((stepTile s.threshold)^[k])
    ∧ ((GameState.step)^[k] s).threshold = s.threshold := by
  induction k with
  | zero => simp
  | succ k ih =>
    rw [Function.iterate_succ_apply']
    rcases ih with ⟨h1, h2⟩
    constructor
    · show ((GameState.step^[k] s).tiles.map
        (stepTile (GameState.step^[k] s).threshold)) = _
      rw [h1, h2, List.map_map, Function.iterate_succ']
    · show (GameState.step^[k] s).threshold = _
      exact h2

/-- C7: for every state (with the program's positive threshold), iterating
the tick `maxCountdown + threshold + 1` times leaves every tile Dead. -/
theorem iterate_step_all_dead (s : GameState) (hth : 1 ≤ s.threshold) :
    ((GameState.step^[maxCountdown s.tiles + s.threshold + 1]) s).tiles.all
      Tile.isDead = true := by
  rcases iterate_step_tiles s (maxCountdown s.tiles + s.threshold + 1) with ⟨h1, -⟩
  rw [h1, List.all_eq_true]
  intro x hx
  rcases List.mem_map.mp hx with ⟨t, htm, rfl⟩
  have hb : deathSteps s.threshold t ≤ maxCountdown s.tiles + s.threshold + 1 := by
    have := deathSteps_le_bound s.threshold t
    have := countdownOf_le_maxCountdown s.tiles t htm
    omega
  rw [stepTile_iterate_dead s.threshold hth _ t hb]
  rfl

/-- Witness for C7 at a concrete state. -/
theorem iterate_step_all_dead_witness :
    1 ≤ (GameState.new [Tile.Latent 2, Tile.Dead]).threshold
    ∧ ((GameState.step^[maxCountdown (GameState.new
          [Tile.Latent 2, Tile.Dead]).tiles +
        (GameState.new [Tile.Latent 2, Tile.Dead]).threshold + 1])
        (GameState.new [Tile.Latent 2, Tile.Dead])).tiles.all
      Tile.isDead = true :=
  ⟨by decide, iterate_step_all_dead (GameState.new [Tile.Latent 2, Tile.Dead])
    (by decide)⟩

theorem consumeAdv_length (n : Nat) (l : List Action) :
    (consumeAdv n l).2.length ≤ l.length := by
  induction l generalizing n with
  | nil => simp [consumeAdv]
  | cons b t ih =>
    cases b <;> simp [consumeAdv] <;> exact Nat.le_succ_of_le (ih _)

theorem consumeRun_length (a : Action) (n : Nat) (l : List Action) :
    (consumeRun a n l).2.length ≤ l.length := by
  induction l generalizing n with
  | nil => simp [consumeRun]
  | cons b t ih =>
    by_cases hc : b = a ∧ n ≤ 3
    · simp [consumeRun, hc]
      exact Nat.le_succ_of_le (ih _)
    · simp [consumeRun, hc]

theorem consumeRun_fst_le (a : Action) (m : Nat) (l : List Action) :
    (consumeRun a m l).1 ≤ max m 4 := by
  induction l generalizing m with
  | nil => simp [consumeRun]
  | cons b t ih =>
    by_cases hc : b = a ∧ m ≤ 3
    · rw [consumeRun, if_pos hc]
      have h1 := ih (m + 1)
      have h2 : m ≤ 3 := hc.2
      omega
    · rw [consumeRun, if_neg hc]
      exact le_max_left _ _

/-- C2 counterexample: the run [CW, CW, CW, CW] is consumed by a single
gesture of 4 rotations, so the claimed cap of 3 rotations per emitted
gesture is violated. -/
theorem encode_run_cap_three_violated :
    (accumulate [Action.Clockwise, Action.Clockwise, Action.Clockwise,
        Action.Clockwise] 0).all (fun g => decide (consumedRot g ≤ 3)) = false := by
  have h : accumulate [Action.Clockwise, Action.Clockwise, Action.Clockwise,
      Action.Clockwise] 0 = [Gesture.rotGesture 4 4 false] := by
    simp [accumulate, consumeRun]
    decide
  rw [h]
  decide

/-- C2 amended: each emitted rotation gesture consumes at most 4
consecutive same-direction rotation actions (the source's loop guard
`n <= 3` still consumes at n = 3); longer maximal runs are split into
gestures obeying this bound. -/
theorem encode_run_cap_four (acts : List Action) (loc : Int) :
    (accumulate acts loc).all (fun g => decide (consumedRot g ≤ 4)) = true := by
  have main : ∀ (N : Nat) (l : List Action) (pos : Int), l.length ≤ N →
      (accumulate l pos).all (fun g => decide (consumedRot g ≤ 4)) = true := by
    intro N
    induction N with
    | zero =>
      intro l pos h
      have hl : l = [] := List.eq_nil_of_length_eq_zero (Nat.le_zero.mp h)
      subst hl
      simp [accumulate]
    | succ N ih =>
      intro l pos h
      match l with
      | [] => simp [accumulate]
      | Action.Advance :: rest =>
        rw [accumulate]
        simp only [List.all_cons, Bool.and_eq_true]
        refine ⟨by simp [consumedRot], ?_⟩
        apply ih
        have := consumeAdv_length 1 rest
        simp at h
        omega
      | Action.CounterClockwise :: rest =>
        rw [accumulate]
        have hle : (consumeRun Action.CounterClockwise 1 rest).1 ≤ 4 := by
          have := consumeRun_fst_le Action.CounterClockwise 1 rest
          omega
        have hlen := consumeRun_length Action.CounterClockwise 1 rest
        simp at h
        split
        case _ rest2 heq =>
          simp only [List.all_cons, Bool.and_eq_true]
          refine ⟨by simp [consumedRot]; omega, ?_⟩
          apply ih
          have : rest2.length + 1 = (consumeRun Action.CounterClockwise 1 rest).2.length := by
            rw [heq]
            simp
          omega
        case _ hne =>
          simp only [List.all_cons, Bool.and_eq_true]
          refine ⟨by simp [consumedRot]; omega, ?_⟩
          apply ih
          omega
      | Action.Clockwise :: rest =>
        rw [accumulate]
        have hle : (consumeRun Action.Clockwise 1 rest).1 ≤ 4 := by
          have := consumeRun_fst_le Action.Clockwise 1 rest
          omega
        have hlen := consumeRun_length Action.Clockwise 1 rest
        simp at h
        split
        case _ rest2 heq =>
          simp only [List.all_cons, Bool.and_eq_true]
          refine ⟨by simp [consumedRot]; omega, ?_⟩
          apply ih
          have : rest2.length + 1 = (consumeRun Action.Clockwise 1 rest).2.length := by
            rw [heq]
            simp
          omega
        case _ hne =>
          simp only [List.all_cons, Bool.and_eq_true]
          refine ⟨by simp [consumedRot]; omega, ?_⟩
          apply ih
          omega
      | Action.Collect :: rest =>
        rw [accumulate]
        simp only [List.all_cons, Bool.and_eq_true]
        refine ⟨by simp [consumedRot], ?_⟩
        apply ih
        simp at h
        omega
  exact main acts.length acts loc (le_refl _)

/-- C3 (code bug): on the length-2 board parsed from "00", `solve`
returns start location 0 with history [Advance ×4, Collect,
CounterClockwise, Collect]; the encoder prints the final gesture at
position (0 - 1).rem_euclid(6) = 5, which is not a position of the
2-region board, while replaying the rotations with `execute`'s
(cursor + N - 1) % N update gives cursor 1. -/
theorem encode_position_modulus_bug :
    ((solveF 60 (GameState.new (parseTiles ['0', '0'])) []).1.map
        (fun g => (g.start_location, g.action_queue))) =
      some (some 0,
        [Action.Advance, Action.Advance, Action.Advance, Action.Advance,
         Action.Collect, Action.CounterClockwise, Action.Collect])
    ∧ accumulate
        [Action.Advance, Action.Advance, Action.Advance, Action.Advance,
         Action.Collect, Action.CounterClockwise, Action.Collect] 0 =
      [Gesture.tapTimes 4, Gesture.swipeActive, Gesture.rotGesture 1 5 true]
    ∧ replayLoc 2
        [Action.Advance, Action.Advance, Action.Advance, Action.Advance,
         Action.Collect, Action.CounterClockwise, Action.Collect] 0 = 1
    ∧ (5 : Int) ≠ (1 : Int) ∧ ¬ ((5 : Int) < (2 : Int)) := by
  refine ⟨by rfl, ?_, by rfl, by decide, by decide⟩
  simp [accumulate, consumeAdv, consumeRun]
  decide

theorem noCC_single (a : Action) : noConsecCollect [a] = true := by
  cases a <;> rfl

theorem noCC_cons_cons (x y : Action) (t : List Action) :
    noConsecCollect (x :: y :: t) =
      if x = Action.Collect ∧ y = Action.Collect then false
      else noConsecCollect (y :: t) := by
  cases x <;> cases y <;> simp [noConsecCollect]

theorem noConsec_append (q : List Action) (a : Action)
    (hq : noConsecCollect q = true)
    (hg : ¬(q.getLast? = some Action.Collect ∧ a = Action.Collect)) :
    noConsecCollect (q ++ [a]) = true := by
  induction q with
  | nil =>
    rw [List.nil_append]
    exact noCC_single a
  | cons x rest ih =>
    cases rest with
    | nil =>
      have h1 : (x :: ([] : List Action)) ++ [a] = x :: a :: [] := rfl
      rw [h1, noCC_cons_cons]
      have hne : ¬(x = Action.Collect ∧ a = Action.Collect) := by
        rintro ⟨rfl, h2⟩
        exact hg ⟨rfl, h2⟩
      rw [if_neg hne]
      exact noCC_single a
    | cons y t =>
      have h1 : (x :: y :: t) ++ [a] = x :: y :: (t ++ [a]) := rfl
      rw [h1, noCC_cons_cons]
      rw [noCC_cons_cons] at hq
      split at hq
      · simp at hq
      case _ hP =>
        rw [if_neg hP]
        have hg' : ¬((y :: t).getLast? = some Action.Collect ∧ a = Action.Collect) := by
          rw [List.getLast?_cons_cons] at hg
          exact hg
        exact ih hq hg'

theorem execute_queue (s : GameState) (a : Action) (ns : GameState)
    (h : execute s a = some ns) : ns.action_queue = s.action_queue ++ [a] := by
  cases a with
  | Advance =>
    simp [execute] at h
    subst h
    rfl
  | CounterClockwise =>
    rcases hl : s.location with - | l <;> simp [execute, hl] at h
    rcases h with ⟨-, h⟩
    subst h
    rfl
  | Clockwise =>
    rcases hl : s.location with - | l <;> simp [execute, hl] at h
    rcases h with ⟨-, h⟩
    subst h
    rfl
  | Collect =>
    rcases hl : s.location with - | i <;> simp [execute, hl] at h
    rcases h with ⟨hi, h⟩
    subst h
    rfl

theorem chooseBest_cases (b r : Option GameState) :
    chooseBest b r = b ∨ chooseBest b r = r := by
  rcases r with - | r
  · exact Or.inl rfl
  · rcases b with - | b
    · exact Or.inr rfl
    · rw [chooseBest]
      split
      · exact Or.inr rfl
      · exact Or.inl rfl

theorem foldl_keep_inv {α : Type}
    (P : GameState → Prop)
    (f : (Option GameState × List SeenState) → α → Option GameState × List SeenState)
    (hf : ∀ acc x, (∀ g, acc.1 = some g → P g) → ∀ g, (f acc x).1 = some g → P g)
    (L : List α) (init : Option GameState × List SeenState)
    (hinit : ∀ g, init.1 = some g → P g) :
    ∀ g, (L.foldl f init).1 = some g → P g := by
  induction L generalizing init with
  | nil => exact hinit
  | cons x t ih =>
    rw [List.foldl_cons]
    exact ih (f init x) (hf init x hinit)

theorem solveF_noConsec (fuel : Nat) :
    ∀ (s : GameState) (seen : List SeenState),
      noConsecCollect s.action_queue = true →
      ∀ g, (solveF fuel s seen).1 = some g →
        noConsecCollect g.action_queue = true := by
  induction fuel with
  | zero =>
    intro s seen hs g h
    simp [solveF] at h
  | succ n ih =>
    intro s seen hs g h
    rw [solveF] at h
    split at h
    · replace h : some s = some g := h
      rw [Option.some.injEq] at h
      subst h
      exact hs
    · split at h
      · replace h : (none : Option GameState) = some g := h
        simp at h
      · split at h
        case _ hloceq =>
          refine foldl_keep_inv (fun g => noConsecCollect g.action_queue = true)
            _ ?_ _ _ (by intro g' hg'; simp at hg') g h
          intro acc i hacc g' hg'
          replace hg' : chooseBest acc.1
              (solveF n (GameState.step
                { s with location := some i, start_location := some i }) acc.2).1 =
              some g' := hg'
          rcases chooseBest_cases acc.1
              (solveF n (GameState.step
                { s with location := some i, start_location := some i }) acc.2).1
              with hc | hc
          · rw [hc] at hg'
            exact hacc g' hg'
          · rw [hc] at hg'
            exact ih (GameState.step
              { s with location := some i, start_location := some i }) acc.2 hs g' hg'
        case _ l hloceq =>
          refine foldl_keep_inv (fun g => noConsecCollect g.action_queue = true)
            _ ?_ _ _ (by intro g' hg'; simp at hg') g h
          intro acc a hacc g' hg'
          by_cases hguard : s.action_queue.getLast? = some Action.Collect ∧
              a = Action.Collect
          · replace hg' : acc.1 = some g' := by
              simpa [hguard] using hg'
            exact hacc g' hg'
          · rcases hex : execute s a with - | ns
            · replace hg' : acc.1 = some g' := by
                simpa [hguard, hex] using hg'
              exact hacc g' hg'
            · replace hg' : chooseBest acc.1 (solveF n ns acc.2).1 = some g' := by
                simpa [hguard, hex] using hg'
              rcases chooseBest_cases acc.1 (solveF n ns acc.2).1 with hc | hc
              · rw [hc] at hg'
                exact hacc g' hg'
              · rw [hc] at hg'
                have hns : noConsecCollect ns.action_queue = true := by
                  rw [execute_queue s a ns hex]
                  exact noConsec_append s.action_queue a hs hguard
                exact ih ns acc.2 hns g' hg'

/-- C9: a state returned by the search never contains two consecutive
Collect actions in its history, provided the input state's history
contains none (in particular for the fresh states `main` passes in). -/
theorem solve_no_consecutive_collects (fuel : Nat) (s : GameState)
    (seen : List SeenState) (g : GameState)
    (hq : noConsecCollect s.action_queue = true)
    (h : (solveF fuel s seen).1 = some g) :
    noConsecCollect g.action_queue = true :=
  solveF_noConsec fuel s seen hq g h

/-- Witness for C9 on a concrete solved board. -/
theorem solve_no_consecutive_collects_witness :
    noConsecCollect (GameState.new [Tile.Dead]).action_queue = true
    ∧ (solveF 1 (GameState.new [Tile.Dead]) []).1 = some (GameState.new [Tile.Dead])
    ∧ noConsecCollect (GameState.new [Tile.Dead]).action_queue = true :=
  ⟨by decide, by decide,
    solve_no_consecutive_collects 1 (GameState.new [Tile.Dead]) []
      (GameState.new [Tile.Dead]) (by decide) (by decide)⟩

end Hexless
